import Mathlib

/-!
Shallow embedding of the markdown-to-document converter of `src/app.py`
(class `DocxGenerator`, lines 37-101).

Strings are modelled as `List Char`.  The mutable `python-docx` document is
modelled by the ordered list of blocks appended to it, and the cached TOC
list `self.headings` by a list of `(level, text)` pairs; together they form
`GenState`.  The two regular expressions of the source
(`re.split(r'(^#+.+$)', ..., flags=re.MULTILINE)` and
`re.split(r'(\*\*.+?\*\*)', ...)`) are embedded as executable scanners whose
output token lists agree with Python's `re.split` (captured groups
interleaved with the gaps between matches, empty gaps included).
-/

namespace TDG

/-- String literal to the `List Char` representation used throughout. -/
def strL (s : String) : List Char := s.toList

/-- Whitespace test used by Python's `str.strip` (ASCII fragment). -/
def isWs (c : Char) : Bool := c.isWhitespace

/-- Python `s.lstrip()`. -/
def pyLStrip (cs : List Char) : List Char := cs.dropWhile isWs

/-- Python `s.strip()`. -/
def pyStrip (cs : List Char) : List Char :=
  ((cs.dropWhile isWs).reverse.dropWhile isWs).reverse

/-- Python truthiness of an `Optional[str]`: `None` and `""` are falsy. -/
def pyTruthy : Option (List Char) → Bool
  | none => false
  | some s => !s.isEmpty

/-- Python `s.split('\n')` (keeps empty pieces; `"".split('\n') == ['']`). -/
def splitNl : List Char → List (List Char)
  | [] => [[]]
  | c :: rest =>
    if c = '\n' then [] :: splitNl rest
    else
      match splitNl rest with
      | [] => [[c]]
      | l :: ls => (c :: l) :: ls

/-- Join lines back with `'\n'` separators. -/
def joinNl : List (List Char) → List Char
  | [] => []
  | [l] => l
  | l :: ls => l ++ '\n' :: joinNl ls

/-- A line matched by `^#+.+$` in MULTILINE mode: it starts with `'#'` and has
at least one further (non-newline) character.  A lone `"#"` line does NOT
match, because `.+` needs at least one character after the `#+` part. -/
def isHeadingLine : List Char → Bool
  | c :: _ :: _ => c == '#'
  | _ => false

/-- `re.split(r'(^#+.+$)', text, flags=re.MULTILINE)`, reconstructed from the
line list: each heading line is a captured part of its own; the text between
two captures (including the bordering newline characters) forms a gap part.
`cur` is the reversed list of lines of the gap accumulated so far. -/
def sectionsAux (cur : List (List Char)) : List (List Char) → List (List Char)
  | [] => [joinNl cur.reverse]
  | l :: rest =>
    if isHeadingLine l then
      joinNl (([] : List Char) :: cur).reverse :: l :: sectionsAux [[]] rest
    else
      sectionsAux (l :: cur) rest

/-- The section list produced by line 64 of `src/app.py`. -/
def sectionsOf (text : List Char) : List (List Char) := sectionsAux [] (splitNl text)

/-! ### The inline-bold splitter `re.split(r'(\*\*.+?\*\*)', text)` -/

/-- The two-character marker `**`. -/
def starstar : List Char := ['*', '*']

/-- Does `"**"` occur somewhere in the list? -/
def hasStarStar : List Char → Bool
  | '*' :: '*' :: _ => true
  | _ :: rest => hasStarStar rest
  | [] => false

/-- Given the text right after an opening `**`, is there a closing `**`
reachable with a nonempty middle (i.e. a `"**"` occurrence starting at
position ≥ 1)?  This is when `\*\*.+?\*\*` completes a match. -/
def hasClose : List Char → Bool
  | [] => false
  | _ :: rest => hasStarStar rest

/-- A token of Python's `re.split` with one capturing group: either a gap
between matches (possibly empty) or the captured group, stored by its middle
(the `.+?` part); the full captured string is `"**" ++ mid ++ "**"`. -/
inductive Tok
  | gap (s : List Char)
  | capture (mid : List Char)
  deriving DecidableEq, Repr

/-- The raw string of a token, as Python's `re.split` returns it. -/
def Tok.text : Tok → List Char
  | .gap s => s
  | .capture mid => starstar ++ mid ++ starstar

/-- Scanner state for the one-character-per-step tokenizer. -/
inductive ScanSt
  | gapAcc (accRev : List Char)
  | open2
  | capFirst
  | capAcc (accRev : List Char)
  | close2
  deriving DecidableEq, Repr

/-- One-pass tokenizer equivalent to scanning for leftmost, non-greedy
matches of `\*\*.+?\*\*`: in `gapAcc`, a match starts exactly when the
current and next characters are `**` and a closing `**` exists later with a
nonempty middle; the middle then absorbs at least one character
(`capFirst`), and the first subsequent `**` closes the capture (non-greedy).
Otherwise the current character is literal gap text. -/
def scanStep : ScanSt → List Char → List Tok
  | .gapAcc accRev, [] => [Tok.gap accRev.reverse]
  | .gapAcc accRev, c :: rest =>
    if c == '*' && rest.head? == some '*' && hasClose rest.tail then
      Tok.gap accRev.reverse :: scanStep .open2 rest
    else
      scanStep (.gapAcc (c :: accRev)) rest
  | .open2, _ :: rest => scanStep .capFirst rest
  | .open2, [] => []
  | .capFirst, c :: rest => scanStep (.capAcc [c]) rest
  | .capFirst, [] => []
  | .capAcc accRev, c :: rest =>
    if c == '*' && rest.head? == some '*' then
      Tok.capture accRev.reverse :: scanStep .close2 rest
    else
      scanStep (.capAcc (c :: accRev)) rest
  | .capAcc accRev, [] => [Tok.capture accRev.reverse]
  | .close2, _ :: rest => scanStep (.gapAcc []) rest
  | .close2, [] => []

/-- `re.split(r'(\*\*.+?\*\*)', cs)` as a tagged token list. -/
def splitBoldTok (cs : List Char) : List Tok := scanStep (.gapAcc []) cs

/-- `re.split(r'(\*\*.+?\*\*)', cs)` as the plain string list Python returns. -/
def splitBold (cs : List Char) : List (List Char) := (splitBoldTok cs).map Tok.text

/-! ### The document model -/

/-- Paragraph style of a list item (`'List Bullet'` / `'List Number'`). -/
inductive ListKind
  | bullet
  | numbered
  deriving DecidableEq, Repr

/-- One `python-docx` run: a span of text with its bold flag. -/
structure Run where
  text : List Char
  bold : Bool
  deriving DecidableEq, Repr

/-- One structural unit appended to the document. -/
inductive Block
  | heading (level : Nat) (text : List Char)
  | paragraph (runs : List Run)
  | listItem (kind : ListKind) (runs : List Run)
  deriving DecidableEq, Repr

/-- The observable state of a `DocxGenerator`: the blocks appended to
`self.doc` and the TOC cache `self.headings`.  `__init__` starts both empty. -/
structure GenState where
  blocks : List Block
  headings : List (Nat × List Char)
  deriving DecidableEq, Repr

/-- Python `segment[2:-2]`. -/
def sliceBold (t : List Char) : List Char := (t.drop 2).take (t.length - 4)

/-- Lines 54-58 of `src/app.py`: one split segment becomes one run; the
bold branch fires when the segment both starts and ends with `**`. -/
def processSegment (t : List Char) : Run :=
  if starstar.isPrefixOf t && starstar.isSuffixOf t then
    ⟨sliceBold t, true⟩
  else
    ⟨t, false⟩

/-- `DocxGenerator._process_text_segments` (lines 51-58): the runs added to
one paragraph for a content string. -/
def process_text_segments (cs : List Char) : List Run :=
  (splitBold cs).map processSegment

/-- `DocxGenerator._add_heading_to_toc` (lines 46-49). -/
def add_heading_to_toc (g : GenState) (level : Nat) (text : List Char) : GenState :=
  if 1 < level then { g with headings := g.headings ++ [(level, text)] } else g

/-- Append one block to the document. -/
def appendBlock (g : GenState) (b : Block) : GenState :=
  { g with blocks := g.blocks ++ [b] }

/-- `section.count('#')` (line 69). -/
def headingLevelOf (sec : List Char) : Nat := sec.count '#'

/-- `section.replace('#', '').strip()` (line 70). -/
def headingTextOf (sec : List Char) : List Char :=
  pyStrip (sec.filter (fun c => c != '#'))

/-- Python's substring test `pat in s`. -/
def isSubstr (pat : List Char) : List Char → Bool
  | [] => pat.isEmpty
  | c :: rest => pat.isPrefixOf (c :: rest) || isSubstr pat rest

/-- The literal `"Solution"`. -/
def solutionStr : List Char := strL "Solution"

/-- The literal `"How It Works"`. -/
def howItWorksStr : List Char := strL "How It Works"

/-- Lines 68-80 of `src/app.py`: heading branch.  Returns the updated
generator state and the updated `current_solution_heading`. -/
def processHeading (g : GenState) (sol : Option (List Char)) (sec : List Char) :
    GenState × Option (List Char) :=
  let lvl := headingLevelOf sec
  let txt := headingTextOf sec
  let g1 := add_heading_to_toc g lvl txt
  if isSubstr solutionStr txt then
    (appendBlock g1 (Block.heading (Nat.min lvl 2) txt), some txt)
  else if isSubstr howItWorksStr txt && pyTruthy sol then
    (appendBlock g1 (Block.heading 3 txt), sol)
  else
    (appendBlock g1 (Block.heading (Nat.min lvl 2) txt), sol)

/-- `re.match(r'^\d+\. ', cs)` (anchored at the start of `cs`). -/
def matchNum (cs : List Char) : Bool :=
  let ds := cs.takeWhile Char.isDigit
  !ds.isEmpty && (strL ". ").isPrefixOf (cs.drop ds.length)

/-- `re.sub(r'^\d+\. ', '', line)`: drop the numbered prefix when it is
present at the very start of the (unstripped) line, else leave unchanged. -/
def subNum (line : List Char) : List Char :=
  if matchNum line then line.drop ((line.takeWhile Char.isDigit).length + 2)
  else line

/-- Lines 83-94 of `src/app.py`: the block (if any) one body line produces.
Note that the bullet/numbered checks are made on `line.strip()`, while the
content is computed from the original, unstripped `line`. -/
def classifyLine (line : List Char) : Option Block :=
  if (pyStrip line).isEmpty then none
  else if (strL "- ").isPrefixOf (pyStrip line) then
    some (Block.listItem .bullet (process_text_segments (line.drop 2)))
  else if matchNum (pyStrip line) then
    some (Block.listItem .numbered (process_text_segments (subNum line)))
  else
    some (Block.paragraph (process_text_segments line))

/-- Append the block of one body line (lines 82-94). -/
def processLine (g : GenState) (line : List Char) : GenState :=
  match classifyLine line with
  | none => g
  | some b => appendBlock g b

/-- `section.startswith('#')`. -/
def startsHash : List Char → Bool
  | [] => false
  | c :: _ => c == '#'

/-- Lines 65-94 of `src/app.py`: dispatch of one section of the split. -/
def processSection (st : GenState × Option (List Char)) (sec : List Char) :
    GenState × Option (List Char) :=
  if (pyStrip sec).isEmpty then st
  else if startsHash sec then
    processHeading st.1 st.2 sec
  else
    ((splitNl sec).foldl processLine st.1, st.2)

/-- `DocxGenerator.markdown_to_word` (lines 60-94): `current_solution_heading`
is initialised to `None` (line 62) at the start of every call and discarded
at the end. -/
def markdown_to_word (g : GenState) (text : List Char) : GenState :=
  ((sectionsOf text).foldl processSection (g, none)).1

/-- A conversion on a freshly constructed generator (`DocxGenerator()`
followed by `markdown_to_word`). -/
def build (text : List Char) : GenState :=
  markdown_to_word ⟨[], []⟩ text

/-! ### Claim-side (spec-worded) definitions -/

/-- Concatenation of the run texts of a block's run list. -/
def concatRuns (rs : List Run) : List Char := (rs.map Run.text).flatten

/-- The spec's "visible line with the matched `**` pairs stripped": every
matched pair (a captured `**…**` span of the splitter) loses its two
markers; all gap text is kept verbatim. -/
def stripMatchedPairs (cs : List Char) : List Char :=
  ((splitBoldTok cs).map (fun t =>
    match t with
    | .gap s => s
    | .capture mid => mid)).flatten

/-- A gap token that Python's overlap-tolerant `startswith/endswith` test
nevertheless treats as bold (`"**"`, `"***"`, `"****"`). -/
def pseudoGap : Tok → Bool
  | .gap s => starstar.isPrefixOf s && starstar.isSuffixOf s
  | .capture _ => false

/-- The claim's "count of leading `'#'` characters". -/
def leadingHashes (cs : List Char) : Nat := (cs.takeWhile (fun c => c == '#')).length

/-! ### Helper lemmas: every step only appends, and the appended part does not
depend on the pre-existing generator state -/

theorem processLine_norm (g : GenState) (l : List Char) :
    processLine g l = { g with blocks := g.blocks ++ (processLine ⟨[], []⟩ l).blocks } := by
  unfold processLine appendBlock
  cases classifyLine l <;> simp

theorem foldLines_norm (ls : List (List Char)) (g : GenState) :
    ls.foldl processLine g =
      { blocks := g.blocks ++ (ls.foldl processLine ⟨[], []⟩).blocks,
        headings := g.headings ++ (ls.foldl processLine ⟨[], []⟩).headings } := by
  induction ls generalizing g with
  | nil => simp
  | cons l ls ih =>
    simp only [List.foldl_cons]
    rw [ih (processLine g l), ih (processLine ⟨[], []⟩ l), processLine_norm g l,
      processLine_norm ⟨[], []⟩ l]
    simp

theorem processHeading_norm (g : GenState) (sol : Option (List Char)) (sec : List Char) :
    processHeading g sol sec =
      ({ blocks := g.blocks ++ (processHeading ⟨[], []⟩ sol sec).1.blocks,
         headings := g.headings ++ (processHeading ⟨[], []⟩ sol sec).1.headings },
       (processHeading ⟨[], []⟩ sol sec).2) := by
  simp only [processHeading, add_heading_to_toc, appendBlock]
  split_ifs <;> simp

theorem processSection_norm (g : GenState) (sol : Option (List Char)) (sec : List Char) :
    processSection (g, sol) sec =
      ({ blocks := g.blocks ++ (processSection (⟨[], []⟩, sol) sec).1.blocks,
         headings := g.headings ++ (processSection (⟨[], []⟩, sol) sec).1.headings },
       (processSection (⟨[], []⟩, sol) sec).2) := by
  unfold processSection
  split_ifs with h1 h2
  · simp
  · exact processHeading_norm g sol sec
  · simp only
    rw [foldLines_norm _ g]

theorem foldSections_norm (secs : List (List Char)) (g : GenState) (sol : Option (List Char)) :
    secs.foldl processSection (g, sol) =
      ({ blocks := g.blocks ++ (secs.foldl processSection (⟨[], []⟩, sol)).1.blocks,
         headings := g.headings ++ (secs.foldl processSection (⟨[], []⟩, sol)).1.headings },
       (secs.foldl processSection (⟨[], []⟩, sol)).2) := by
  induction secs generalizing g sol with
  | nil => simp
  | cons s ss ih =>
    simp only [List.foldl_cons]
    rw [ih (processSection (g, sol) s).1 (processSection (g, sol) s).2,
        ih (processSection (⟨[], []⟩, sol) s).1 (processSection (⟨[], []⟩, sol) s).2]
    rw [processSection_norm g sol s]
    simp [List.append_assoc]

theorem markdown_to_word_norm (g : GenState) (text : List Char) :
    markdown_to_word g text =
      { blocks := g.blocks ++ (build text).blocks,
        headings := g.headings ++ (build text).headings } := by
  unfold build markdown_to_word
  rw [foldSections_norm (sectionsOf text) g none]

/-! ### Claim theorems -/

/-- C9: `current_solution_heading` is freshly initialised to `None` at the
start of every `markdown_to_word` call and discarded at the end, so the
blocks and TOC entries a conversion appends are a function of its input text
alone, independent of the generator's prior state; in particular two
conversions of equal input on independently constructed generators produce
equal block sequences and TOC lists, and a "Solution" heading seen in one
conversion never triggers the "How It Works" override of a later conversion
(the second run below yields display level 2, not 3). -/
theorem conversion_independence :
    (∀ (g : GenState) (text : List Char),
      markdown_to_word g text =
        { blocks := g.blocks ++ (build text).blocks,
          headings := g.headings ++ (build text).headings }) ∧
    (markdown_to_word (markdown_to_word ⟨[], []⟩ (strL "## My Solution"))
        (strL "## How It Works")).blocks
      = [Block.heading 2 (strL "My Solution"), Block.heading 2 (strL "How It Works")] :=
  ⟨markdown_to_word_norm, by decide⟩

/-- C10: the TOC list is append-only and never reset: `_add_heading_to_toc`
either appends one entry or leaves the list unchanged, every processing step
only appends to it, and a second `markdown_to_word` call on the same
instance appends its entries after those of the first call. -/
theorem toc_append_only :
    (∀ (g : GenState) (level : Nat) (text : List Char),
      (add_heading_to_toc g level text).headings
        = g.headings ++ (if 1 < level then [(level, text)] else [])) ∧
    (∀ (st : GenState × Option (List Char)) (sec : List Char),
      ∃ d, ((processSection st sec).1).headings = st.1.headings ++ d) ∧
    (∀ (g : GenState) (t1 t2 : List Char),
      (markdown_to_word (markdown_to_word g t1) t2).headings
        = g.headings ++ ((build t1).headings ++ (build t2).headings)) := by
  refine ⟨fun g level text => ?_, fun st sec => ?_, fun g t1 t2 => ?_⟩
  · unfold add_heading_to_toc
    split_ifs <;> simp
  · obtain ⟨g, sol⟩ := st
    exact ⟨_, congrArg (fun s => s.1.headings) (processSection_norm g sol sec)⟩
  · rw [markdown_to_word_norm, markdown_to_word_norm g t1]
    simp [List.append_assoc]

theorem add_heading_to_toc_blocks (g : GenState) (level : Nat) (text : List Char) :
    (add_heading_to_toc g level text).blocks = g.blocks := by
  unfold add_heading_to_toc
  split_ifs <;> rfl

/-- C3: sequential override rule.  A heading whose text contains "Solution"
is recorded in `current_solution_heading` and keeps display level
`min(nominal, 2)` (this branch wins even when the text also contains
"How It Works"); a heading containing "How It Works" processed while that
state is set (and not itself containing "Solution") gets display level 3
regardless of its nominal level; the state survives every later processing
step of the conversion, so the trigger scope is the whole document. -/
theorem solution_override_rule :
    (∀ (g : GenState) (sol : Option (List Char)) (sec : List Char),
      (pyStrip sec).isEmpty = false → startsHash sec = true →
      isSubstr solutionStr (headingTextOf sec) = true →
      (processSection (g, sol) sec).1.blocks
          = g.blocks ++ [Block.heading (Nat.min (headingLevelOf sec) 2) (headingTextOf sec)] ∧
        (processSection (g, sol) sec).2 = some (headingTextOf sec)) ∧
    (∀ (g : GenState) (sol : Option (List Char)) (sec : List Char),
      (pyStrip sec).isEmpty = false → startsHash sec = true →
      isSubstr solutionStr (headingTextOf sec) = false →
      isSubstr howItWorksStr (headingTextOf sec) = true → pyTruthy sol = true →
      (processSection (g, sol) sec).1.blocks = g.blocks ++ [Block.heading 3 (headingTextOf sec)] ∧
        (processSection (g, sol) sec).2 = sol) ∧
    (∀ (st : GenState × Option (List Char)) (sec : List Char),
      pyTruthy st.2 = true → pyTruthy (processSection st sec).2 = true) ∧
    (build (strL "## My Solution\nbody text\n### How It Works")).blocks
      = [Block.heading 2 (strL "My Solution"),
         Block.paragraph [⟨strL "body text", false⟩],
         Block.heading 3 (strL "How It Works")] := by
  refine ⟨fun g sol sec h1 h2 h3 => ?_, fun g sol sec h1 h2 h3 h4 h5 => ?_,
    fun st sec h => ?_, by decide⟩
  · simp [processSection, processHeading, h1, h2, h3, add_heading_to_toc_blocks, appendBlock]
  · simp [processSection, processHeading, h1, h2, h3, h4, h5, add_heading_to_toc_blocks,
      appendBlock]
  · obtain ⟨g, sol⟩ := st
    unfold processSection
    split_ifs with h1 h2
    · exact h
    · simp only [processHeading]
      split_ifs with hs hw
      · cases htxt : headingTextOf sec with
        | nil => rw [htxt] at hs; exact absurd hs (by decide)
        | cons a t => simp [pyTruthy]
      · exact h
      · exact h
    · exact h

/-- Witness for C3 -/
theorem solution_override_rule_witness :
    (processSection (⟨[], []⟩, none) (strL "## The Solution")).2 = some (strL "The Solution") ∧
    (processSection (⟨[], []⟩, some (strL "The Solution")) (strL "#### How It Works")).1.blocks
      = [Block.heading 3 (strL "How It Works")] ∧
    pyTruthy (processSection (⟨[], []⟩, some (strL "x")) (strL "plain body")).2 = true := by
  refine ⟨?_, ?_, ?_⟩
  · rw [(solution_override_rule.1 ⟨[], []⟩ none (strL "## The Solution")
      (by decide) (by decide) (by decide)).2]
    decide
  · rw [(solution_override_rule.2.1 ⟨[], []⟩ (some (strL "The Solution"))
      (strL "#### How It Works") (by decide) (by decide) (by decide) (by decide) (by decide)).1]
    decide
  · exact solution_override_rule.2.2.1 (⟨[], []⟩, some (strL "x")) (strL "plain body") (by decide)

/-- Counterexample for C2: for the heading segment `"## C# x"` the classifier
records nominal level 3 (the total number of the hash character characters) in the TOC,
while the count of leading the hash character characters is 2. -/
theorem nominal_level_counterexample :
    (build (strL "## C# x")).headings = [(3, strL "C x")] ∧
    leadingHashes (strL "## C# x") = 2 ∧ (3 : Nat) ≠ 2 := by decide

theorem processSection_heading (g : GenState) (sol : Option (List Char)) (sec : List Char)
    (h1 : (pyStrip sec).isEmpty = false) (h2 : startsHash sec = true) :
    processSection (g, sol) sec = processHeading g sol sec := by
  unfold processSection
  rw [h1, h2]
  simp

theorem processHeading_headings (g : GenState) (sol : Option (List Char)) (sec : List Char) :
    (processHeading g sol sec).1.headings
      = (add_heading_to_toc g (headingLevelOf sec) (headingTextOf sec)).headings := by
  simp only [processHeading]
  split_ifs <;> simp [appendBlock]

theorem processHeading_blocks_ex (g : GenState) (sol : Option (List Char)) (sec : List Char) :
    ∃ lvl, (processHeading g sol sec).1.blocks
      = g.blocks ++ [Block.heading lvl (headingTextOf sec)] := by
  simp only [processHeading]
  split_ifs with hs hw
  · exact ⟨Nat.min (headingLevelOf sec) 2, by simp [appendBlock, add_heading_to_toc_blocks]⟩
  · exact ⟨3, by simp [appendBlock, add_heading_to_toc_blocks]⟩
  · exact ⟨Nat.min (headingLevelOf sec) 2, by simp [appendBlock, add_heading_to_toc_blocks]⟩

/-- C2 amended: for every heading segment, the nominal level used by the
classifier and recorded in the TOC is the total count of the hash character characters
occurring anywhere in the segment (equal to the leading count only when no
the hash character occurs later), and the heading text is the segment with all the hash character
characters removed and then trimmed. -/
theorem nominal_level_amended (g : GenState) (sol : Option (List Char)) (sec : List Char)
    (h1 : (pyStrip sec).isEmpty = false) (h2 : startsHash sec = true) :
    (processSection (g, sol) sec).1.headings
        = g.headings ++
          (if 1 < sec.count '#' then
            [(sec.count '#', pyStrip (sec.filter (fun c => c != '#')))] else []) ∧
      ∃ lvl, (processSection (g, sol) sec).1.blocks
        = g.blocks ++ [Block.heading lvl (pyStrip (sec.filter (fun c => c != '#')))] := by
  rw [processSection_heading g sol sec h1 h2]
  constructor
  · rw [processHeading_headings]
    unfold add_heading_to_toc headingLevelOf headingTextOf
    split_ifs <;> simp
  · exact processHeading_blocks_ex g sol sec

/-- Witness for C2 amended. -/
theorem nominal_level_amended_witness :
    (processSection (⟨[], []⟩, none) (strL "## C# x")).1.headings = [(3, strL "C x")] := by
  rw [(nominal_level_amended ⟨[], []⟩ none (strL "## C# x") (by decide) (by decide)).1]
  decide

/-- C6: TOC registration.  A heading whose nominal level is 1 never produces
a TOCEntry; a heading whose nominal level is greater than 1 produces exactly
one TOCEntry carrying that nominal (pre-renormalization) level and the
heading text; repeated identical headings produce repeated entries. -/
theorem toc_registration :
    (∀ (g : GenState) (sol : Option (List Char)) (sec : List Char),
      (pyStrip sec).isEmpty = false → startsHash sec = true →
      (headingLevelOf sec = 1 → (processSection (g, sol) sec).1.headings = g.headings) ∧
      (1 < headingLevelOf sec →
        (processSection (g, sol) sec).1.headings
          = g.headings ++ [(headingLevelOf sec, headingTextOf sec)])) ∧
    (build (strL "## A\n## A")).headings = [(2, strL "A"), (2, strL "A")] := by
  refine ⟨fun g sol sec h1 h2 => ?_, by decide⟩
  rw [processSection_heading g sol sec h1 h2, processHeading_headings]
  unfold add_heading_to_toc
  constructor
  · intro hl
    rw [hl]
    simp
  · intro hl
    rw [if_pos hl]

/-- Witness for C6. -/
theorem toc_registration_witness :
    (processSection (⟨[], []⟩, none) (strL "# T")).1.headings = [] ∧
    (processSection (⟨[], []⟩, none) (strL "## A")).1.headings = [(2, strL "A")] := by
  constructor
  · rw [(toc_registration.1 ⟨[], []⟩ none (strL "# T") (by decide) (by decide)).1 (by decide)]
  · rw [(toc_registration.1 ⟨[], []⟩ none (strL "## A") (by decide) (by decide)).2 (by decide)]
    decide

theorem startsHash_count (sec : List Char) (h : startsHash sec = true) :
    1 ≤ headingLevelOf sec := by
  cases sec with
  | nil => exact absurd h (by decide)
  | cons c rest =>
    unfold startsHash at h
    unfold headingLevelOf
    rw [List.count_cons]
    have hc : c = '#' := by simpa using h
    simp [hc]

theorem classifyLine_shape (line : List Char) (b : Block) (h : classifyLine line = some b) :
    ∀ lvl txt, b ≠ Block.heading lvl txt := by
  intro lvl txt
  unfold classifyLine at h
  split_ifs at h
  · injection h with h
    subst h
    simp
  · injection h with h
    subst h
    simp
  · injection h with h
    subst h
    simp

theorem processLine_mem (g : GenState) (l : List Char) (b : Block)
    (h : b ∈ (processLine g l).blocks) :
    b ∈ g.blocks ∨ ∀ lvl txt, b ≠ Block.heading lvl txt := by
  unfold processLine at h
  cases hc : classifyLine l with
  | none => rw [hc] at h; exact Or.inl h
  | some b' =>
    rw [hc] at h
    simp only [appendBlock, List.mem_append, List.mem_singleton] at h
    rcases h with h | h
    · exact Or.inl h
    · subst h
      exact Or.inr (classifyLine_shape l _ hc)

theorem foldLines_mem (ls : List (List Char)) (g : GenState) (b : Block)
    (h : b ∈ (ls.foldl processLine g).blocks) :
    b ∈ g.blocks ∨ ∀ lvl txt, b ≠ Block.heading lvl txt := by
  induction ls generalizing g with
  | nil => exact Or.inl h
  | cons l ls ih =>
    simp only [List.foldl_cons] at h
    rcases ih (processLine g l) h with h' | h'
    · exact processLine_mem g l b h'
    · exact Or.inr h'

theorem processHeading_mem (g : GenState) (sol : Option (List Char)) (sec : List Char)
    (hs : startsHash sec = true) (b : Block) (h : b ∈ (processHeading g sol sec).1.blocks) :
    b ∈ g.blocks ∨ ∀ lvl txt, b = Block.heading lvl txt → 1 ≤ lvl ∧ lvl ≤ 3 := by
  have hlvl := startsHash_count sec hs
  simp only [processHeading] at h
  split_ifs at h <;>
    simp only [appendBlock, add_heading_to_toc_blocks, List.mem_append, List.mem_singleton] at h <;>
    rcases h with h | h
  · exact Or.inl h
  · subst h
    right
    intro lvl txt heq
    injection heq with h1 h2
    subst h1
    constructor
    · exact Nat.le_min.mpr ⟨hlvl, by omega⟩
    · exact le_trans (Nat.min_le_right _ 2) (by omega)
  · exact Or.inl h
  · subst h
    right
    intro lvl txt heq
    injection heq with h1 h2
    omega
  · exact Or.inl h
  · subst h
    right
    intro lvl txt heq
    injection heq with h1 h2
    subst h1
    constructor
    · exact Nat.le_min.mpr ⟨hlvl, by omega⟩
    · exact le_trans (Nat.min_le_right _ 2) (by omega)

theorem processSection_mem (st : GenState × Option (List Char)) (sec : List Char) (b : Block)
    (h : b ∈ (processSection st sec).1.blocks) :
    b ∈ st.1.blocks ∨ ∀ lvl txt, b = Block.heading lvl txt → 1 ≤ lvl ∧ lvl ≤ 3 := by
  obtain ⟨g, sol⟩ := st
  unfold processSection at h
  split_ifs at h with h1 h2
  · exact Or.inl h
  · exact processHeading_mem g sol sec h2 b h
  · rcases foldLines_mem _ _ _ h with h' | h'
    · exact Or.inl h'
    · right
      intro lvl txt he
      exact absurd he (h' lvl txt)

theorem foldSections_mem (secs : List (List Char)) (st : GenState × Option (List Char))
    (b : Block) (h : b ∈ (secs.foldl processSection st).1.blocks) :
    b ∈ st.1.blocks ∨ ∀ lvl txt, b = Block.heading lvl txt → 1 ≤ lvl ∧ lvl ≤ 3 := by
  induction secs generalizing st with
  | nil => exact Or.inl h
  | cons s ss ih =>
    simp only [List.foldl_cons] at h
    rcases ih (processSection st s) h with h' | h'
    · exact processSection_mem st s b h'
    · exact Or.inr h'

/-- C8: every heading block a conversion produces has display level in
1, 2 or 3; the level is `min(nominal, 2)` by default and 3 only via the
"How It Works" override; nominal depths beyond 6 are clamped to 2 and are
never fatal (the conversion is a total function). -/
theorem display_level_bounds :
    (∀ (text : List Char) (lvl : Nat) (txt : List Char),
      Block.heading lvl txt ∈ (build text).blocks → 1 ≤ lvl ∧ lvl ≤ 3) ∧
    (∀ (g : GenState) (sol : Option (List Char)) (sec : List Char),
      (pyStrip sec).isEmpty = false → startsHash sec = true →
      ∃ lvl, (processSection (g, sol) sec).1.blocks
          = g.blocks ++ [Block.heading lvl (headingTextOf sec)] ∧
        (lvl = Nat.min (headingLevelOf sec) 2 ∨
          (lvl = 3 ∧ isSubstr howItWorksStr (headingTextOf sec) = true ∧ pyTruthy sol = true ∧
            isSubstr solutionStr (headingTextOf sec) = false))) ∧
    (build (strL "####### deep")).blocks = [Block.heading 2 (strL "deep")] := by
  refine ⟨fun text lvl txt h => ?_, fun g sol sec h1 h2 => ?_, by decide⟩
  · unfold build markdown_to_word at h
    rcases foldSections_mem (sectionsOf text) (⟨[], []⟩, none) _ h with h' | h'
    · exact absurd h' (by simp)
    · exact h' lvl txt rfl
  · rw [processSection_heading g sol sec h1 h2]
    simp only [processHeading]
    split_ifs with hs hw
    · exact ⟨Nat.min (headingLevelOf sec) 2,
        by simp [appendBlock, add_heading_to_toc_blocks], Or.inl rfl⟩
    · rw [Bool.and_eq_true] at hw
      rw [Bool.not_eq_true] at hs
      exact ⟨3, by simp [appendBlock, add_heading_to_toc_blocks],
        Or.inr ⟨rfl, hw.1, hw.2, hs⟩⟩
    · exact ⟨Nat.min (headingLevelOf sec) 2,
        by simp [appendBlock, add_heading_to_toc_blocks], Or.inl rfl⟩

/-- Witness for C8. -/
theorem display_level_bounds_witness :
    (1 ≤ 1 ∧ 1 ≤ 3) ∧
    (processSection (⟨[], []⟩, none) (strL "##### deep")).1.blocks
      = [Block.heading 2 (strL "deep")] := by
  constructor
  · exact display_level_bounds.1 (strL "# T") 1 (strL "T") (by decide)
  · obtain ⟨lvl, heq, hcase⟩ :=
      display_level_bounds.2.1 ⟨[], []⟩ none (strL "##### deep") (by decide) (by decide)
    rcases hcase with hc | hc
    · rw [heq, hc]
      decide
    · exact absurd hc.2.1 (by decide)

/-- Counterexample for C5: the indented bullet line `"  - item"` is
classified Bullet, but its content is the original line with its first two
characters removed (`"- item"`), not everything after the `"- "` list
marker of the left-trimmed line (`"item"`). -/
theorem list_content_counterexample :
    (build (strL "  - item")).blocks
      = [Block.listItem .bullet [⟨strL "- item", false⟩]] ∧
    (pyLStrip (strL "  - item")).drop 2 = strL "item" ∧
    strL "- item" ≠ strL "item" := by decide

/-- C5 amended: a body line is classified Bullet when the line trimmed on
both ends starts with `"- "`, and the item content is the original line
with its first two characters removed; it is classified Numbered when the
trimmed line starts with digits followed by `". "`, and the content is the
line with that prefix removed only when the prefix sits at the very start
of the unindented line (otherwise the full line); anything else non-empty
is a Paragraph with the full line.  For unindented lines this coincides
with the original claim.  Bullet and Numbered are mutually exclusive. -/
theorem list_classification_amended :
    (∀ (g : GenState) (line : List Char),
      (strL "- ").isPrefixOf (pyStrip line) = true →
      (processLine g line).blocks
        = g.blocks ++ [Block.listItem .bullet (process_text_segments (line.drop 2))]) ∧
    (∀ (g : GenState) (line : List Char),
      (pyStrip line).isEmpty = false →
      (strL "- ").isPrefixOf (pyStrip line) = false →
      matchNum (pyStrip line) = true →
      (processLine g line).blocks
        = g.blocks ++ [Block.listItem .numbered (process_text_segments (subNum line))]) ∧
    (∀ (g : GenState) (line : List Char),
      (pyStrip line).isEmpty = false →
      (strL "- ").isPrefixOf (pyStrip line) = false →
      matchNum (pyStrip line) = false →
      (processLine g line).blocks
        = g.blocks ++ [Block.paragraph (process_text_segments line)]) ∧
    (∀ s : List Char, (strL "- ").isPrefixOf s = true → matchNum s = false) ∧
    subNum (strL "  1. x") = strL "  1. x" := by
  refine ⟨fun g line h1 => ?_, fun g line h0 h1 h2 => ?_, fun g line h0 h1 h2 => ?_,
    fun s hs => ?_, by decide⟩
  · have h0 : (pyStrip line).isEmpty = false := by
      cases hp : pyStrip line with
      | nil => rw [hp] at h1; exact absurd h1 (by decide)
      | cons a t => rfl
    simp [processLine, classifyLine, h0, h1, appendBlock]
  · simp [processLine, classifyLine, h0, h1, h2, appendBlock]
  · simp [processLine, classifyLine, h0, h1, h2, appendBlock]
  · rw [ List.isPrefixOf_iff_prefix] at hs
    obtain ⟨t, ht⟩ := hs
    have he : strL "- " = ['-', ' '] := rfl
    rw [he] at ht
    rw [← ht]
    simp [matchNum, List.takeWhile_cons]

/-- Witness for C5 amended. -/
theorem list_classification_amended_witness :
    (processLine ⟨[], []⟩ (strL "- step")).blocks
      = [Block.listItem .bullet [⟨strL "step", false⟩]] ∧
    (processLine ⟨[], []⟩ (strL "2. go")).blocks
      = [Block.listItem .numbered [⟨strL "go", false⟩]] ∧
    (processLine ⟨[], []⟩ (strL "plain")).blocks
      = [Block.paragraph [⟨strL "plain", false⟩]] := by
  refine ⟨?_, ?_, ?_⟩
  · rw [list_classification_amended.1 ⟨[], []⟩ (strL "- step") (by decide)]
    decide
  · rw [list_classification_amended.2.1 ⟨[], []⟩ (strL "2. go")
      (by decide) (by decide) (by decide)]
    decide
  · rw [list_classification_amended.2.2.1 ⟨[], []⟩ (strL "plain")
      (by decide) (by decide) (by decide)]
    decide

/-- Counterexample for C4: the stray-marker token `"**"` has length 2 < 4,
yet the splitter emits a bold Run with empty text for it (the overlapping
Python `startswith`/`endswith` checks both succeed on `"**"`), not a literal
plain Run. -/
theorem bold_tokenization_counterexample :
    process_text_segments (strL "**") = [⟨[], true⟩] ∧
    (strL "**").length < 4 ∧
    ([Run.mk [] true] : List Run) ≠ [⟨strL "**", false⟩] := by decide

theorem sliceBold_capture (mid : List Char) :
    sliceBold (starstar ++ mid ++ starstar) = mid := by
  unfold sliceBold
  have hlen : (starstar ++ mid ++ starstar).length - 4 = mid.length := by
    simp [starstar]
  rw [hlen]
  have hdrop : (starstar ++ mid ++ starstar).drop 2 = mid ++ starstar := by
    have : starstar.length = 2 := rfl
    rw [List.append_assoc, ← this, List.drop_left]
  rw [hdrop, List.take_left]

theorem processSegment_capture (mid : List Char) :
    processSegment (Tok.text (Tok.capture mid)) = ⟨mid, true⟩ := by
  show processSegment (starstar ++ mid ++ starstar) = ⟨mid, true⟩
  unfold processSegment
  rw [if_pos]
  · rw [sliceBold_capture]
  · rw [Bool.and_eq_true, List.isPrefixOf_iff_prefix, List.isSuffixOf_iff_suffix]
    constructor
    · rw [List.append_assoc]
      exact List.prefix_append starstar (mid ++ starstar)
    · exact List.suffix_append (starstar ++ mid) starstar

theorem processSegment_plain (s : List Char)
    (hs : (starstar.isPrefixOf s && starstar.isSuffixOf s) = false) :
    processSegment s = ⟨s, false⟩ := by
  unfold processSegment
  rw [hs]
  simp

/-- C4 amended: a token becomes a bold Run, with the two-character markers
stripped from both ends, exactly when it starts with `**` and ends with
`**` — the two checks may overlap, so the degenerate all-asterisk tokens
(`"**"`, `"***"`, `"****"`) become an empty bold Run rather than literal
text; every other token is emitted as a literal plain Run; the tokenizer is
total (never raises); the input `"**unterminated bold"` yields a single
Paragraph with that exact text as one plain Run. -/
theorem bold_tokenization_amended :
    (∀ mid : List Char, processSegment (Tok.text (Tok.capture mid)) = ⟨mid, true⟩) ∧
    (∀ s : List Char, (starstar.isPrefixOf s && starstar.isSuffixOf s) = false →
      processSegment s = ⟨s, false⟩) ∧
    (∀ t : List Char, processSegment t = ⟨sliceBold t, true⟩ ∨ processSegment t = ⟨t, false⟩) ∧
    (build (strL "**unterminated bold")).blocks
      = [Block.paragraph [⟨strL "**unterminated bold", false⟩]] ∧
    process_text_segments (strL "**") = [⟨[], true⟩] := by
  refine ⟨processSegment_capture, processSegment_plain, fun t => ?_, by decide, by decide⟩
  unfold processSegment
  split_ifs
  · exact Or.inl rfl
  · exact Or.inr rfl

/-- Witness for C4 amended. -/
theorem bold_tokenization_amended_witness :
    processSegment (strL "plain text") = ⟨strL "plain text", false⟩ :=
  bold_tokenization_amended.2.1 (strL "plain text") (by decide)

/-- Counterexample for C1: converting the input `"**"` produces a Paragraph
whose single Run has empty text, while the visible line with its matched
`**` pairs stripped is `"**"` itself (the lone marker is unmatched): the
two visible characters are lost. -/
theorem text_preservation_counterexample :
    (build (strL "**")).blocks = [Block.paragraph [⟨[], true⟩]] ∧
    concatRuns [⟨[], true⟩] = [] ∧
    stripMatchedPairs (strL "**") = strL "**" ∧
    strL "**" ≠ ([] : List Char) := by decide

/-- C1 amended: text preservation holds for every content string fed to the
inline formatter whose token list contains no degenerate all-asterisk gap
token (a gap that both starts and ends with `**`, i.e. 2-4 consecutive
asterisks left over at the end of the line): concatenating the Run texts in
order yields the content with exactly the matched `**` pairs stripped, with
no other visible character lost or duplicated.  (For list items the content
fed to the formatter is the one described in C5.) -/
theorem text_preservation_amended (cs : List Char)
    (h : ∀ t ∈ splitBoldTok cs, pseudoGap t = false) :
    concatRuns (process_text_segments cs) = stripMatchedPairs cs := by
  unfold concatRuns process_text_segments stripMatchedPairs splitBold
  revert h
  generalize splitBoldTok cs = toks
  intro h
  induction toks with
  | nil => simp
  | cons t ts ih =>
    simp only [List.map_cons, List.flatten_cons]
    have hh := h t (List.mem_cons_self t ts)
    have ht := ih (fun u hu => h u (List.mem_cons_of_mem t hu))
    rw [ht]
    cases t with
    | gap s =>
      simp only [Tok.text]
      rw [processSegment_plain s hh]
    | capture mid =>
      rw [processSegment_capture mid]

/-- Witness for C1 amended. -/
theorem text_preservation_amended_witness :
    (∀ t ∈ splitBoldTok (strL "This **changed**."), pseudoGap t = false) ∧
    concatRuns (process_text_segments (strL "This **changed**."))
      = stripMatchedPairs (strL "This **changed**.") :=
  ⟨by decide, text_preservation_amended _ (by decide)⟩

theorem splitNl_ne_nil (cs : List Char) : splitNl cs ≠ [] := by
  cases cs with
  | nil => simp [splitNl]
  | cons c rest =>
    simp only [splitNl]
    split_ifs
    · simp
    · cases splitNl rest <;> simp

theorem splitNl_cons_nl (rest : List Char) : splitNl ('\n' :: rest) = [] :: splitNl rest := by
  simp [splitNl]

theorem splitNl_cons_not_nl (c : Char) (rest : List Char) (hc : ¬c = '\n') :
    ∃ t ts, splitNl rest = t :: ts ∧ splitNl (c :: rest) = (c :: t) :: ts := by
  cases hs : splitNl rest with
  | nil => exact absurd hs (splitNl_ne_nil rest)
  | cons t ts =>
    refine ⟨t, ts, rfl, ?_⟩
    simp only [splitNl]
    rw [if_neg hc, hs]

theorem splitNl_no_nl (cs : List Char) (h : '\n' ∉ cs) : splitNl cs = [cs] := by
  induction cs with
  | nil => rfl
  | cons c rest ih =>
    have hc : ¬c = '\n' := fun hcc => h (List.mem_cons.mpr (Or.inl hcc.symm))
    obtain ⟨t, ts, hs, he⟩ := splitNl_cons_not_nl c rest hc
    rw [ih (fun hm => h (List.mem_cons_of_mem c hm))] at hs
    injection hs with h1 h2
    subst h1
    subst h2
    exact he

theorem splitNl_append_cons (x rest : List Char) (h : '\n' ∉ x) :
    splitNl (x ++ '\n' :: rest) = x :: splitNl rest := by
  induction x with
  | nil => exact splitNl_cons_nl rest
  | cons c x ih =>
    have hc : ¬c = '\n' := fun hcc => h (List.mem_cons.mpr (Or.inl hcc.symm))
    have ihx := ih (fun hm => h (List.mem_cons_of_mem c hm))
    obtain ⟨t, ts, hs, he⟩ := splitNl_cons_not_nl c (x ++ '\n' :: rest) hc
    rw [ihx] at hs
    injection hs with h1 h2
    subst h1
    subst h2
    show splitNl (c :: (x ++ '\n' :: rest)) = (c :: x) :: splitNl rest
    exact he

theorem mem_splitNl_no_nl (cs : List Char) : ∀ l ∈ splitNl cs, '\n' ∉ l := by
  induction cs with
  | nil =>
    intro l hl
    rcases List.mem_singleton.mp hl with rfl
    simp
  | cons c rest ih =>
    intro l hl
    by_cases hc : c = '\n'
    · subst hc
      rw [splitNl_cons_nl] at hl
      rcases List.mem_cons.mp hl with rfl | h
      · simp
      · exact ih l h
    · obtain ⟨t, ts, hs, he⟩ := splitNl_cons_not_nl c rest hc
      rw [he] at hl
      rcases List.mem_cons.mp hl with rfl | h
      · intro hm
        rcases List.mem_cons.mp hm with h' | h'
        · exact hc h'.symm
        · exact ih t (by rw [hs]; exact List.mem_cons_self t ts) h'
      · exact ih l (by rw [hs]; exact List.mem_cons_of_mem t h)

theorem splitNl_joinNl (gl : List (List Char)) (hne : gl ≠ [])
    (h : ∀ l ∈ gl, '\n' ∉ l) : splitNl (joinNl gl) = gl := by
  induction gl with
  | nil => exact absurd rfl hne
  | cons x gl ih =>
    cases gl with
    | nil => exact splitNl_no_nl x (h x (List.mem_cons_self x []))
    | cons y ys =>
      show splitNl (x ++ '\n' :: joinNl (y :: ys)) = x :: (y :: ys)
      rw [splitNl_append_cons x _ (h x (List.mem_cons_self x _))]
      rw [ih (by simp) (fun l hl => h l (List.mem_cons_of_mem x hl))]

theorem gap_sec_lines (gl : List (List Char))
    (hgl : ∀ l ∈ gl, isHeadingLine l = false ∧ '\n' ∉ l) :
    ∀ l ∈ splitNl (joinNl gl), isHeadingLine l = false := by
  intro l hl
  cases gl with
  | nil =>
    simp only [joinNl] at hl
    rcases List.mem_singleton.mp hl with rfl
    rfl
  | cons x xs =>
    rw [splitNl_joinNl (x :: xs) (by simp) (fun u hu => (hgl u hu).2)] at hl
    exact (hgl l hl).1

theorem sectionsAux_shape (ls : List (List Char)) :
    ∀ cur : List (List Char),
    (∀ l ∈ ls, '\n' ∉ l) →
    (∀ l ∈ cur, isHeadingLine l = false ∧ '\n' ∉ l) →
    ∀ sec ∈ sectionsAux cur ls,
      (isHeadingLine sec = true ∧ '\n' ∉ sec) ∨
      (∀ l ∈ splitNl sec, isHeadingLine l = false) := by
  induction ls with
  | nil =>
    intro cur hls hcur sec hsec
    rcases List.mem_singleton.mp hsec with rfl
    exact Or.inr (gap_sec_lines cur.reverse
      (fun u hu => hcur u (List.mem_reverse.mp hu)))
  | cons l0 ls ih =>
    intro cur hls hcur sec hsec
    by_cases h0 : isHeadingLine l0 = true
    · simp only [sectionsAux] at hsec
      rw [if_pos h0] at hsec
      rcases List.mem_cons.mp hsec with rfl | hsec'
      · refine Or.inr (gap_sec_lines (([] : List Char) :: cur).reverse (fun u hu => ?_))
        rcases List.mem_cons.mp (List.mem_reverse.mp hu) with rfl | hu'
        · exact ⟨rfl, by simp⟩
        · exact hcur u hu'
      · rcases List.mem_cons.mp hsec' with rfl | hsec''
        · exact Or.inl ⟨h0, hls sec (List.mem_cons_self sec ls)⟩
        · exact ih [[]] (fun l hl => hls l (List.mem_cons_of_mem l0 hl))
            (fun l hl => by rcases List.mem_singleton.mp hl with rfl; exact ⟨rfl, by simp⟩)
            sec hsec''
    · simp only [sectionsAux] at hsec
      rw [if_neg h0] at hsec
      exact ih (l0 :: cur) (fun l hl => hls l (List.mem_cons_of_mem l0 hl))
        (fun l hl => by
          rcases List.mem_cons.mp hl with rfl | hl'
          · exact ⟨Bool.not_eq_true _ ▸ h0, hls l (List.mem_cons_self l ls)⟩
          · exact hcur l hl')
        sec hsec

theorem sectionsAux_heading_mem (ls : List (List Char)) :
    ∀ (cur : List (List Char)) (l : List Char), l ∈ ls → isHeadingLine l = true →
      l ∈ sectionsAux cur ls := by
  induction ls with
  | nil =>
    intro cur l hl
    exact absurd hl (List.not_mem_nil l)
  | cons l0 ls ih =>
    intro cur l hl hh
    rcases List.mem_cons.mp hl with rfl | hmem
    · simp only [sectionsAux]
      rw [if_pos hh]
      exact List.mem_cons_of_mem _ (List.mem_cons_self l _)
    · by_cases h0 : isHeadingLine l0 = true
      · simp only [sectionsAux]
        rw [if_pos h0]
        exact List.mem_cons_of_mem _ (List.mem_cons_of_mem _ (ih [[]] l hmem hh))
      · simp only [sectionsAux]
        rw [if_neg h0]
        exact ih (l0 :: cur) l hmem hh

/-- Counterexample for C7: in the input `"#\ntext"` the first line `"#"`
starts with the hash character but is not matched by `^#+.+$` (which needs a character
after the hashes), so it does not form its own segment; the whole two-line
input becomes a single segment that is dispatched to heading processing. -/
theorem segmentation_counterexample :
    sectionsOf (strL "#\ntext") = [strL "#\ntext"] ∧
    splitNl (strL "#\ntext") = [strL "#", strL "text"] ∧
    startsHash (strL "#\ntext") = true ∧
    (pyStrip (strL "#\ntext")).isEmpty = false ∧
    (build (strL "#\ntext")).blocks = [Block.heading 1 (strL "text")] := by decide

/-- C7 amended: a heading segment is one maximal line that starts with the hash character
and contains at least one further character; every segment is either such a
single heading line (never split, containing exactly that one heading
line), or a block none of whose lines is a heading line; each heading line
of the input forms its own segment; and a segment that heading processing
would accept (it starts with the hash character) is a single line except when its first
line is a lone `"#"`. -/
theorem segmentation_amended :
    (∀ (text sec : List Char), sec ∈ sectionsOf text →
      (isHeadingLine sec = true ∧ '\n' ∉ sec) ∨
      (∀ l ∈ splitNl sec, isHeadingLine l = false)) ∧
    (∀ (text l : List Char), l ∈ splitNl text → isHeadingLine l = true →
      l ∈ sectionsOf text) ∧
    (∀ (text sec : List Char), sec ∈ sectionsOf text → startsHash sec = true →
      ('\n' ∉ sec) ∨ (splitNl sec).head? = some (strL "#")) := by
  refine ⟨fun text sec hsec => ?_,
    fun text l hl hh => sectionsAux_heading_mem _ [] l hl hh,
    fun text sec hsec hsh => ?_⟩
  · exact sectionsAux_shape (splitNl text) [] (mem_splitNl_no_nl text) (by simp) sec hsec
  · rcases sectionsAux_shape (splitNl text) [] (mem_splitNl_no_nl text) (by simp) sec hsec with
      ⟨hh, hnl⟩ | hall
    · exact Or.inl hnl
    · right
      cases sec with
      | nil => exact absurd hsh (by decide)
      | cons c rest =>
        have hc : c = '#' := by simpa [startsHash] using hsh
        have hcnl : ¬c = '\n' := by rw [hc]; decide
        obtain ⟨t, ts, hs, he⟩ := splitNl_cons_not_nl c rest hcnl
        rw [he]
        have hfl : isHeadingLine (c :: t) = false :=
          hall (c :: t) (by rw [he]; exact List.mem_cons_self _ _)
        cases t with
        | nil => rw [hc]; rfl
        | cons a t' =>
          rw [hc] at hfl
          exact absurd hfl (by simp [isHeadingLine])

/-- Witness for C7 amended. -/
theorem segmentation_amended_witness :
    strL "## A" ∈ sectionsOf (strL "intro\n## A\nbody") ∧
    ('\n' ∉ strL "## A") ∧
    (('\n' ∉ strL "## A") ∨ (splitNl (strL "## A")).head? = some (strL "#")) := by
  have h1 := segmentation_amended.2.1 (strL "intro\n## A\nbody") (strL "## A")
    (by decide) (by decide)
  refine ⟨h1, ?_, ?_⟩
  · rcases segmentation_amended.1 (strL "intro\n## A\nbody") (strL "## A") h1 with
      ⟨_, hnl⟩ | hall
    · exact hnl
    · exact absurd (hall (strL "## A") (by decide)) (by decide)
  · exact segmentation_amended.2.2 (strL "intro\n## A\nbody") (strL "## A") h1 (by decide)
end TDG
